import Mathlib

/-!
Verification development for the estensen/merkle Merkle-tree library.

The Go sources keep several revisions of the package in one tree; the
current revision is the final `package merkle` text of src/merkle.go
(NewTree / buildTree / UpdateLeaf / RemoveLeaf / GenerateProof /
GenerateProofByIndex / VerifyProof / combineHashes).  `AddLeaf` exists only
in the middle revision and is embedded from there.

The embedding makes the Go heap explicit: nodes live in a list indexed by
allocation order, child and parent pointers are `Option Nat` node ids, and
in-place mutation is `List.set`.  Upward pointer walks are given fuel equal
to the heap size; running out of fuel, like dereferencing a nil pointer,
is modelled as the `crash` outcome of `GoRes` (a Go panic), distinct from
returned errors.  The digest provider is a parameter `Bytes → Bytes`; the
concrete provider used by the repository's tests and CLI, SHA-256, is
implemented below so that concrete scenarios evaluate inside the kernel.
-/

set_option maxRecDepth 100000

namespace MerkleSpec

/-- Byte strings are lists of naturals (each `< 256` for real inputs). -/
abbrev Bytes := List Nat

namespace SHA256

/-- Truncate to a 32-bit word. -/
def w32 (x : Nat) : Nat := x % 4294967296

/-- Rotate the word `x` right by `n` bit positions. -/
def rotr (n x : Nat) : Nat := w32 ((x >>> n) ||| (x <<< (32 - n)))

/-- The SHA-256 Ch function. -/
def bch (x y z : Nat) : Nat := (x &&& y) ^^^ ((x ^^^ 4294967295) &&& z)

/-- The SHA-256 Maj function. -/
def bmaj (x y z : Nat) : Nat := (x &&& y) ^^^ (x &&& z) ^^^ (y &&& z)

def bsig0 (x : Nat) : Nat := rotr 2 x ^^^ rotr 13 x ^^^ rotr 22 x

def bsig1 (x : Nat) : Nat := rotr 6 x ^^^ rotr 11 x ^^^ rotr 25 x

def ssig0 (x : Nat) : Nat := rotr 7 x ^^^ rotr 18 x ^^^ (x >>> 3)

def ssig1 (x : Nat) : Nat := rotr 17 x ^^^ rotr 19 x ^^^ (x >>> 10)

/-- The 64 round constants of FIPS 180-4, in decimal. -/
def K : List Nat :=
  [1116352408, 1899447441, 3049323471, 3921009573, 961987163,
   1508970993, 2453635748, 2870763221, 3624381080, 310598401,
   607225278, 1426881987, 1925078388, 2162078206, 2614888103,
   3248222580, 3835390401, 4022224774, 264347078, 604807628,
   770255983, 1249150122, 1555081692, 1996064986, 2554220882,
   2821834349, 2952996808, 3210313671, 3336571891, 3584528711,
   113926993, 338241895, 666307205, 773529912, 1294757372,
   1396182291, 1695183700, 1986661051, 2177026350, 2456956037,
   2730485921, 2820302411, 3259730800, 3345764771, 3516065817,
   3600352804, 4094571909, 275423344, 430227734, 506948616,
   659060556, 883997877, 958139571, 1322822218, 1537002063,
   1747873779, 1955562222, 2024104815, 2227730452, 2361852424,
   2428436474, 2756734187, 3204031479, 3329325298]

/-- The eight-word working state. -/
structure St where
  a : Nat
  b : Nat
  c : Nat
  d : Nat
  e : Nat
  f : Nat
  g : Nat
  h : Nat
deriving Repr, DecidableEq

/-- Big-endian bytes of `v`, `n` bytes wide. -/
def beBytes (n v : Nat) : Bytes := (List.range n).map (fun i => (v >>> (8 * (n - 1 - i))) % 256)

/-- SHA-256 padding: append 0x80, zeros to 56 mod 64, then the 64-bit bit length. -/
def padMsg (m : Bytes) : Bytes :=
  let z := (120 - ((m.length + 1) % 64)) % 64
  m ++ [128] ++ List.replicate z 0 ++ beBytes 8 (8 * m.length)

/-- Big-endian 32-bit words of a byte string (length a multiple of 4). -/
def toWords : Bytes → List Nat
  | b0 :: b1 :: b2 :: b3 :: rest => (b0 * 16777216 + b1 * 65536 + b2 * 256 + b3) :: toWords rest
  | _ => []

/-- Extend the 16-word message schedule by `n` further words. -/
def schedExt : Nat → List Nat → List Nat
  | 0, w => w
  | n + 1, w =>
    let t := w.length
    let x := w32 (ssig1 (w.getD (t - 2) 0) + w.getD (t - 7) 0 + ssig0 (w.getD (t - 15) 0) + w.getD (t - 16) 0)
    schedExt n (w ++ [x])

/-- One compression round. -/
def round (s : St) (kt wt : Nat) : St :=
  let t1 := w32 (s.h + bsig1 s.e + bch s.e s.f s.g + kt + wt)
  let t2 := w32 (bsig0 s.a + bmaj s.a s.b s.c)
  ⟨w32 (t1 + t2), s.a, s.b, s.c, w32 (s.d + t1), s.e, s.f, s.g⟩

/-- Run the rounds over the paired constant and schedule lists. -/
def rounds : List Nat → List Nat → St → St
  | kt :: ks, wt :: ws, s => rounds ks ws (round s kt wt)
  | _, _, s => s

/-- Word-wise modular addition of two states. -/
def addSt (x y : St) : St :=
  ⟨w32 (x.a + y.a), w32 (x.b + y.b), w32 (x.c + y.c), w32 (x.d + y.d),
   w32 (x.e + y.e), w32 (x.f + y.f), w32 (x.g + y.g), w32 (x.h + y.h)⟩

/-- Compress one 64-byte block into the state. -/
def compressBlock (s : St) (blk : Bytes) : St :=
  addSt s (rounds K (schedExt 48 (toWords blk)) s)

/-- Fold the compression over `n` consecutive 64-byte blocks. -/
def blocksLoop : Nat → Bytes → St → St
  | 0, _, s => s
  | n + 1, m, s => blocksLoop n (m.drop 64) (compressBlock s (m.take 64))

/-- The initial working state of FIPS 180-4, in decimal. -/
def iv : St :=
  ⟨1779033703, 3144134277, 1013904242, 2773480762,
   1359893119, 2600822924, 528734635, 1541459225⟩

/-- Serialize the state big-endian. -/
def out (s : St) : Bytes :=
  beBytes 4 s.a ++ beBytes 4 s.b ++ beBytes 4 s.c ++ beBytes 4 s.d ++
  beBytes 4 s.e ++ beBytes 4 s.f ++ beBytes 4 s.g ++ beBytes 4 s.h

end SHA256

/-- SHA-256 of a byte string, the `crypto/sha256` provider the repository
uses in its tests and example binaries. -/
def sha256 (m : Bytes) : Bytes :=
  let p := SHA256.padMsg m
  SHA256.out (SHA256.blocksLoop (p.length / 64) p SHA256.iv)

/-- Sanity vector from the repository's own test suite:
SHA-256 of the ASCII bytes of the string yolo. -/
theorem sha256_yolo :
    sha256 [121, 111, 108, 111] =
      [0x31, 0x1f, 0xe3, 0xfe, 0xed, 0x16, 0xb9, 0xcd, 0x8d, 0xf0, 0xf8, 0xb1,
       0x51, 0x7b, 0xe5, 0xcb, 0x86, 0x04, 0x87, 0x07, 0xdf, 0x48, 0x89, 0xba,
       0x8d, 0xc3, 0x7d, 0x4d, 0x68, 0x86, 0x6d, 0x02] := by
  decide

/-- Sanity vector: SHA-256 of the empty byte string. -/
theorem sha256_empty :
    sha256 [] =
      [0xe3, 0xb0, 0xc4, 0x42, 0x98, 0xfc, 0x1c, 0x14, 0x9a, 0xfb, 0xf4, 0xc8,
       0x99, 0x6f, 0xb9, 0x24, 0x27, 0xae, 0x41, 0xe4, 0x64, 0x9b, 0x93, 0x4c,
       0xa4, 0x95, 0x99, 0x1b, 0x78, 0x52, 0xb8, 0x55] := by
  decide

/-! ## Data model

`Node` from src/merkle.go (current revision): Left, Right, Parent pointers,
Hash and Value byte strings.  Pointers become optional node ids into an
explicit heap. -/

/-- One heap cell: the fields of the Go `Node` struct. -/
structure NodeData where
  left : Option Nat
  right : Option Nat
  parent : Option Nat
  hash : Bytes
  value : Bytes
deriving Repr, DecidableEq, Inhabited

/-- The explicit heap: node ids are positions in allocation order. -/
abbrev Heap := List NodeData

/-- Dereference a node id (ids we allocate are always in range). -/
def heapGet (h : Heap) (i : Nat) : NodeData := h.getD i default

/-- In-place update of the cell at id `i`. -/
def hmodify (h : Heap) (i : Nat) (f : NodeData → NodeData) : Heap :=
  h.set i (f (heapGet h i))

/-- The Go `Tree` struct: root pointer, hash function, leaf slice. -/
structure Tree where
  heap : Heap
  root : Option Nat
  leaves : List Nat
  hashFn : Bytes → Bytes

instance : Inhabited Tree := ⟨{ heap := [], root := none, leaves := [], hashFn := fun _ => [] }⟩

/-- The Go `Proof` struct: ordered sibling hashes plus the leaf index. -/
structure Proof where
  hashes : List Bytes
  index : Int
deriving Repr, DecidableEq

/-- The error values of the package. -/
inductive Err where
  | noLeaves
  | noVal
  | indexOutOfBounds
  | proofVerificationFailed
deriving Repr, DecidableEq

/-- Outcome of a Go call: a value, a returned error, or a panic
(nil-pointer dereference, modelled together with fuel exhaustion). -/
inductive GoRes (α : Type) where
  | ok (a : α)
  | err (e : Err)
  | crash
deriving Repr

/-! ## Operations, translated from the current revision of src/merkle.go -/

/-- combineHashes (current revision): an empty side is returned verbatim;
otherwise the digest of left bytes followed by right bytes. -/
def combineHashes (leftHash rightHash : Bytes) (H : Bytes → Bytes) : Bytes :=
  if leftHash = [] then rightHash
  else if rightHash = [] then leftHash
  else H (leftHash ++ rightHash)

/-- One level of buildTree: pair adjacent nodes left to right; a pair gets a
freshly allocated parent whose hash is the digest of the two child hashes and
both children's parent pointers are set to it; an unpaired trailing node is
carried up unchanged.  This is the body of the `for len(nodes) > 1` loop in
the current revision and of the recursive step of the middle revision. -/
def buildStep (H : Bytes → Bytes) : Heap → List Nat → Heap × List Nat
  | h, [] => (h, [])
  | h, [x] => (h, [x])
  | h, x :: y :: rest =>
    let lh := (heapGet h x).hash
    let rh := (heapGet h y).hash
    let pid := h.length
    let h1 := h ++ [{ left := some x, right := some y, parent := none, hash := H (lh ++ rh), value := [] }]
    let h2 := hmodify h1 x (fun d => { d with parent := some pid })
    let h3 := hmodify h2 y (fun d => { d with parent := some pid })
    let res := buildStep H h3 rest
    (res.1, pid :: res.2)

/-- Iterate `buildStep` until one node remains.  The fuel is the initial node
count, which strictly bounds the number of level transitions. -/
def buildLoop (H : Bytes → Bytes) : Nat → Heap → List Nat → Option (Heap × Nat)
  | _, h, [x] => some (h, x)
  | 0, _, _ => none
  | fuel + 1, h, ns =>
    let res := buildStep H h ns
    buildLoop H fuel res.1 res.2

/-- buildTree: nil on an empty slice, otherwise the loop above. -/
def buildTree (H : Bytes → Bytes) (h : Heap) (ns : List Nat) : Option (Heap × Nat) :=
  match ns with
  | [] => none
  | _ => buildLoop H ns.length h ns

/-- NewTree (current revision): reject empty input, pre-hash every value into
a leaf node (the parallel pre-hash writes each digest into its own slot in
input order, so it is the in-order map), then build. -/
def newTree (values : List Bytes) (H : Bytes → Bytes) : Except Err Tree :=
  if values = [] then .error .noLeaves
  else
    let heap0 : Heap := values.map fun v =>
      { left := none, right := none, parent := none, hash := H v, value := v }
    let ids := List.range values.length
    match buildTree H heap0 ids with
    | some hr => .ok { heap := hr.1, root := some hr.2, leaves := ids, hashFn := H }
    | none => .ok { heap := heap0, root := none, leaves := ids, hashFn := H }

/-- AddLeaf (middle revision, the only one defining it): append the hashed
leaf; an empty tree adopts it as root, otherwise a new parent pairs the old
root (left) with the new leaf (right). -/
def addLeaf (t : Tree) (v : Bytes) : Tree :=
  let lid := t.heap.length
  let h1 := t.heap ++ [{ left := none, right := none, parent := none, hash := t.hashFn v, value := v }]
  let leaves' := t.leaves ++ [lid]
  match t.root with
  | none => { t with heap := h1, root := some lid, leaves := leaves' }
  | some rid =>
    let pid := h1.length
    let h2 := hmodify h1 lid (fun d => { d with parent := some pid })
    let h3 := hmodify h2 rid (fun d => { d with parent := some pid })
    let ph := t.hashFn ((heapGet h3 rid).hash ++ (heapGet h3 lid).hash)
    let h4 := h3 ++ [{ left := some rid, right := some lid, parent := none, hash := ph, value := [] }]
    { t with heap := h4, root := some pid, leaves := leaves' }

/-- updateParentHashes (current revision): climb parent pointers from the
leaf; each parent's hash becomes the digest of the concatenation of its
present children's hashes. -/
def updateParentHashes (H : Bytes → Bytes) : Nat → Heap → Nat → Option Heap
  | fuel, h, c =>
    match (heapGet h c).parent with
    | none => some h
    | some p =>
      match fuel with
      | 0 => none
      | fuel + 1 =>
        let nh :=
          match (heapGet h p).left, (heapGet h p).right with
          | some l, some r => H ((heapGet h l).hash ++ (heapGet h r).hash)
          | some l, none => H ((heapGet h l).hash)
          | none, some r => H ((heapGet h r).hash)
          | none, none => H []
        updateParentHashes H fuel (hmodify h p (fun d => { d with hash := nh })) p

/-- UpdateLeaf (current revision). -/
def updateLeaf (t : Tree) (index : Int) (newVal : Bytes) : GoRes Tree :=
  if index < 0 ∨ (t.leaves.length : Int) ≤ index then .err .indexOutOfBounds
  else
    let id := t.leaves.getD index.toNat 0
    let h1 := hmodify t.heap id (fun d => { d with hash := t.hashFn newVal, value := newVal })
    match updateParentHashes t.hashFn h1.length h1 id with
    | some h2 => .ok { t with heap := h2 }
    | none => .crash

/-- updateParentHashesAfterRemoval (current revision): starting at the given
node and climbing to the root, each node's hash becomes the digest of its
left child's hash if a left child is present, else of its right child's hash
if present, else of the empty string.  Note the else-if: a right child is
ignored whenever a left child exists. -/
def updAfterRemoval (H : Bytes → Bytes) : Nat → Heap → Option Nat → Option Heap
  | _, h, none => some h
  | 0, _, some _ => none
  | fuel + 1, h, some c =>
    let d := heapGet h c
    let nh :=
      match d.left, d.right with
      | some l, _ => H ((heapGet h l).hash)
      | none, some r => H ((heapGet h r).hash)
      | none, none => H []
    updAfterRemoval H fuel (hmodify h c (fun nd => { nd with hash := nh })) d.parent

/-- RemoveLeaf (current revision): bounds check, delete from the leaf slice,
empty-tree case, then detach the leaf from its parent and recompute hashes
upward.  A nil parent with leaves remaining is a nil dereference. -/
def removeLeaf (t : Tree) (index : Int) : GoRes Tree :=
  if index < 0 ∨ (t.leaves.length : Int) ≤ index then .err .indexOutOfBounds
  else
    let rid := t.leaves.getD index.toNat 0
    let leaves' := t.leaves.eraseIdx index.toNat
    let parent := (heapGet t.heap rid).parent
    if leaves' = [] ∧ parent = none then .ok { t with root := none, leaves := leaves' }
    else
      match parent with
      | none => .crash
      | some p =>
        let h1 :=
          if (heapGet t.heap p).left = some rid then
            hmodify t.heap p (fun d => { d with left := none })
          else if (heapGet t.heap p).right = some rid then
            hmodify t.heap p (fun d => { d with right := none })
          else t.heap
        match updAfterRemoval t.hashFn h1.length h1 (some p) with
        | some h2 => .ok { t with heap := h2, leaves := leaves' }
        | none => .crash

/-- The sibling-collecting climb of GenerateProofByIndex: at each parent, the
sibling's hash, or the empty string when the sibling pointer is nil, is
appended to the proof. -/
def proofWalk (h : Heap) : Nat → Nat → List Bytes → Option (List Bytes)
  | fuel, c, acc =>
    match (heapGet h c).parent with
    | none => some acc
    | some p =>
      match fuel with
      | 0 => none
      | fuel + 1 =>
        let sib : Bytes :=
          if (heapGet h p).left = some c then
            match (heapGet h p).right with
            | some r => (heapGet h r).hash
            | none => []
          else
            match (heapGet h p).left with
            | some l => (heapGet h l).hash
            | none => []
        proofWalk h fuel p (acc ++ [sib])

/-- GenerateProofByIndex (current revision). -/
def generateProofByIndex (t : Tree) (index : Int) : GoRes Proof :=
  if index < 0 ∨ (t.leaves.length : Int) ≤ index then .err .indexOutOfBounds
  else
    let id := t.leaves.getD index.toNat 0
    match proofWalk t.heap t.heap.length id [] with
    | some hs => .ok { hashes := hs, index := index }
    | none => .crash

/-- The leaf scan of GenerateProof: position of the first leaf whose stored
value equals the requested one. -/
def findLeafIdx (h : Heap) (v : Bytes) : List Nat → Nat → Option Nat
  | [], _ => none
  | id :: rest, k => if (heapGet h id).value = v then some k else findLeafIdx h v rest (k + 1)

/-- GenerateProof (current revision): scan the leaf slice for the first
byte-equal value, then delegate to the index variant, else ErrNoVal. -/
def generateProof (t : Tree) (v : Bytes) : GoRes Proof :=
  match findLeafIdx t.heap v t.leaves 0 with
  | some k => generateProofByIndex t (Int.ofNat k)
  | none => .err .noVal

/-- The verification loop of VerifyProof, with the caller's proof object
threaded through as loop state: the Go body only reads it (the running index
is the local variable), so it emerges unchanged. -/
def verifyLoopS (H : Bytes → Bytes) : List Bytes → Bytes → Int → Proof → Bytes × Proof
  | [], cur, _, p => (cur, p)
  | s :: rest, cur, idx, p =>
    let cur' := if Int.tmod idx 2 = 0 then combineHashes cur s H else combineHashes s cur H
    verifyLoopS H rest cur' (Int.tdiv idx 2) p

/-- VerifyProof (current revision): hash the value, replay the sibling chain
steering by the parity of the running index (Go `%` and `/` truncate, hence
`tmod`/`tdiv`), then compare against `t.Root.Hash`.  The root dereference is
unguarded: a nil root is a panic, modelled as `none`. -/
def verifyProofS (t : Tree) (p : Proof) (value : Bytes) :
    Option (Bool × Option Err) × Proof :=
  let res := verifyLoopS t.hashFn p.hashes (t.hashFn value) p.index p
  match t.root with
  | none => (none, res.2)
  | some r =>
    if res.1 = (heapGet t.heap r).hash then (some (true, none), res.2)
    else (some (false, some Err.proofVerificationFailed), res.2)

/-- The observable root digest, `t.Root.Hash` (empty when the root is nil). -/
def rootHash (t : Tree) : Bytes :=
  match t.root with
  | some r => (heapGet t.heap r).hash
  | none => []

/-- A tree freshly built over the given values with SHA-256, as the
repository's tests do; junk on failure (only the non-empty case is used). -/
def treeOf (values : List Bytes) : Tree :=
  match newTree values sha256 with
  | .ok t => t
  | .error _ => default

/-! ## Heap lemmas -/

theorem heapGet_set_self : ∀ (h : Heap) (i : Nat) (d : NodeData), i < h.length →
    heapGet (h.set i d) i = d
  | [], i, d, hi => absurd hi (by simp)
  | _ :: _, 0, _, _ => rfl
  | _ :: h, i + 1, d, hi => heapGet_set_self h i d (Nat.lt_of_succ_lt_succ hi)

theorem heapGet_set_ne : ∀ (h : Heap) (i j : Nat) (d : NodeData), i ≠ j →
    heapGet (h.set i d) j = heapGet h j
  | [], _, _, _, _ => rfl
  | _ :: _, 0, 0, _, hij => absurd rfl hij
  | _ :: _, 0, _ + 1, _, _ => rfl
  | _ :: _, _ + 1, 0, _, _ => rfl
  | _ :: h, i + 1, j + 1, d, hij => heapGet_set_ne h i j d (fun e => hij (by omega))

theorem heapGet_append_lt : ∀ (h h₂ : Heap) (i : Nat), i < h.length →
    heapGet (h ++ h₂) i = heapGet h i
  | [], _, i, hi => absurd hi (by simp)
  | _ :: _, _, 0, _ => rfl
  | _ :: h, h₂, i + 1, hi => heapGet_append_lt h h₂ i (Nat.lt_of_succ_lt_succ hi)

theorem heapGet_append_self : ∀ (h : Heap) (d : NodeData), heapGet (h ++ [d]) h.length = d
  | [], _ => rfl
  | _ :: h, d => heapGet_append_self h d

theorem set_of_le : ∀ (h : Heap) (i : Nat) (d : NodeData), h.length ≤ i → h.set i d = h
  | [], _, _, _ => rfl
  | _ :: _, 0, _, hi => absurd hi (by simp)
  | x :: h, i + 1, d, hi => by
    show x :: h.set i d = x :: h
    rw [set_of_le h i d (by simpa using hi)]

theorem length_hmodify (h : Heap) (i : Nat) (f : NodeData → NodeData) :
    (hmodify h i f).length = h.length := by
  simp [hmodify]

theorem heapGet_hmodify_ne (h : Heap) (i j : Nat) (f : NodeData → NodeData) (hij : i ≠ j) :
    heapGet (hmodify h i f) j = heapGet h j :=
  heapGet_set_ne h i j _ hij

theorem heapGet_hmodify_self (h : Heap) (i : Nat) (f : NodeData → NodeData) (hi : i < h.length) :
    heapGet (hmodify h i f) i = f (heapGet h i) :=
  heapGet_set_self h i _ hi

/-- Setting a parent pointer never changes any stored hash. -/
theorem hash_hmodify_parent (h : Heap) (i j pid : Nat) :
    (heapGet (hmodify h i (fun d => { d with parent := some pid })) j).hash
      = (heapGet h j).hash := by
  by_cases hij : i = j
  · subst hij
    by_cases hi : i < h.length
    · rw [heapGet_hmodify_self h i _ hi]
    · rw [hmodify, set_of_le h i _ (by omega)]
  · rw [heapGet_hmodify_ne h i j _ hij]

/-! ## Claim theorems -/

/-- Claim C9: combineHashes is the identity on a missing side — an empty
input makes it return the other input verbatim, independently of the digest
function (so the accumulator is never consulted there); only when both sides
are non-empty does it digest the left bytes followed by the right bytes. -/
theorem combineHashes_missing_side (l r : Bytes) (H H' : Bytes → Bytes) :
    (l = [] → combineHashes l r H = r)
  ∧ (r = [] → combineHashes l r H = l)
  ∧ (l ≠ [] → r ≠ [] → combineHashes l r H = H (l ++ r))
  ∧ ((l = [] ∨ r = []) → combineHashes l r H = combineHashes l r H') := by
  unfold combineHashes
  refine ⟨fun hl => ?_, fun hr => ?_, fun hl hr => ?_, fun hor => ?_⟩
  · simp [hl]
  · by_cases hl : l = [] <;> simp [hl, hr]
  · simp [hl, hr]
  · rcases hor with hl | hr
    · simp [hl]
    · by_cases hl : l = [] <;> simp [hl, hr]

/-- Witness for C9 at concrete inputs. -/
theorem combineHashes_missing_side_witness :
    combineHashes [] [5] sha256 = [5] ∧ combineHashes [7] [] sha256 = [7] ∧
    combineHashes [7] [5] sha256 = sha256 [7, 5] ∧
    combineHashes [] [5] sha256 = combineHashes [] [5] (fun _ => []) :=
  ⟨(combineHashes_missing_side [] [5] sha256 (fun _ => [])).1 rfl,
   (combineHashes_missing_side [7] [] sha256 (fun _ => [])).2.1 rfl,
   (combineHashes_missing_side [7] [5] sha256 (fun _ => [])).2.2.1 (by decide) (by decide),
   (combineHashes_missing_side [] [5] sha256 (fun _ => [])).2.2.2 (Or.inl rfl)⟩

/-- Claim C7: the three leaf-indexed operations return ErrIndexOutOfBounds
exactly when the index lies outside the half-open interval from 0 to the
current length of the leaf slice; an in-range index never produces that
error (the bodies after the guard return a value or, at worst, crash). -/
theorem indexed_ops_bounds (t : Tree) (i : Int) (v : Bytes) :
    (updateLeaf t i v = .err .indexOutOfBounds ↔ ¬(0 ≤ i ∧ i < (t.leaves.length : Int)))
  ∧ (removeLeaf t i = .err .indexOutOfBounds ↔ ¬(0 ≤ i ∧ i < (t.leaves.length : Int)))
  ∧ (generateProofByIndex t i = .err .indexOutOfBounds ↔ ¬(0 ≤ i ∧ i < (t.leaves.length : Int))) := by
  refine ⟨?_, ?_, ?_⟩
  · unfold updateLeaf
    split
    · next hg => simp only [true_iff]; omega
    · next hg =>
      constructor
      · intro hcontra
        dsimp only at hcontra
        repeat' split at hcontra
        all_goals simp_all
      · intro hcontra; exfalso; omega
  · unfold removeLeaf
    split
    · next hg => simp only [true_iff]; omega
    · next hg =>
      constructor
      · intro hcontra
        dsimp only at hcontra
        repeat' split at hcontra
        all_goals simp_all
      · intro hcontra; exfalso; omega
  · unfold generateProofByIndex
    split
    · next hg => simp only [true_iff]; omega
    · next hg =>
      constructor
      · intro hcontra
        dsimp only at hcontra
        repeat' split at hcontra
        all_goals simp_all
      · intro hcontra; exfalso; omega

/-- The verification loop only reads the threaded proof object. -/
theorem verifyLoopS_keeps_proof (H : Bytes → Bytes) :
    ∀ (hs : List Bytes) (cur : Bytes) (idx : Int) (p : Proof),
      (verifyLoopS H hs cur idx p).2 = p
  | [], _, _, _ => rfl
  | _ :: rest, _, _, p => verifyLoopS_keeps_proof H rest _ _ p

/-- Claim C6: VerifyProof leaves the caller's proof object untouched — the
running index is a verification-local variable — so re-verifying the very
same proof yields the very same result. -/
theorem verifyProof_no_mutation (t : Tree) (p : Proof) (v : Bytes) :
    (verifyProofS t p v).2 = p
  ∧ (verifyProofS t ((verifyProofS t p v).2) v).1 = (verifyProofS t p v).1 := by
  have h2 : (verifyProofS t p v).2 = p := by
    cases hr : t.root with
    | none =>
      simp only [verifyProofS, hr]
      exact verifyLoopS_keeps_proof t.hashFn p.hashes (t.hashFn v) p.index p
    | some r =>
      simp only [verifyProofS, hr]
      split
      · show (verifyLoopS t.hashFn p.hashes (t.hashFn v) p.index p).2 = p
        exact verifyLoopS_keeps_proof t.hashFn p.hashes (t.hashFn v) p.index p
      · show (verifyLoopS t.hashFn p.hashes (t.hashFn v) p.index p).2 = p
        exact verifyLoopS_keeps_proof t.hashFn p.hashes (t.hashFn v) p.index p
  exact ⟨h2, by rw [h2]⟩

/-- The leaf scan finds nothing exactly when no leaf stores the value. -/
theorem findLeafIdx_eq_none_iff (h : Heap) (v : Bytes) :
    ∀ (l : List Nat) (k : Nat),
      findLeafIdx h v l k = none ↔ ∀ id ∈ l, (heapGet h id).value ≠ v
  | [], k => by simp [findLeafIdx]
  | id :: rest, k => by
    simp only [findLeafIdx]
    split
    · next hval => simp [hval]
    · next hval =>
      rw [findLeafIdx_eq_none_iff h v rest (k + 1)]
      simp [hval]

/-- The leaf scan returns the position of the first match. -/
theorem findLeafIdx_first (h : Heap) (v : Bytes) :
    ∀ (l : List Nat) (k i : Nat), i < l.length →
      (heapGet h (l.getD i 0)).value = v →
      (∀ j, j < i → (heapGet h (l.getD j 0)).value ≠ v) →
      findLeafIdx h v l k = some (k + i)
  | [], _, i, hi, _, _ => absurd hi (by simp)
  | id :: rest, k, 0, _, hval, _ => by
    simp only [List.getD_cons_zero] at hval
    simp [findLeafIdx, hval]
  | id :: rest, k, i + 1, hi, hval, hmin => by
    have hne : (heapGet h id).value ≠ v := by
      have h0 := hmin 0 (Nat.succ_pos i)
      simpa using h0
    have hrec := findLeafIdx_first h v rest (k + 1) i
      (by simp only [List.length_cons] at hi; omega)
      (by simpa using hval)
      (fun j hj => by
        have := hmin (j + 1) (Nat.succ_lt_succ hj)
        simpa using this)
    simp only [findLeafIdx]
    rw [if_neg hne, hrec]
    congr 1
    omega

/-- Claim C8: GenerateProof fails with ErrNoVal exactly when no current leaf
stores a byte-equal value, and otherwise delegates to GenerateProofByIndex at
the lowest matching leaf index. -/
theorem generateProof_first_match (t : Tree) (v : Bytes) :
    (generateProof t v = .err .noVal ↔ ∀ id ∈ t.leaves, (heapGet t.heap id).value ≠ v)
  ∧ (∀ i : Nat, i < t.leaves.length →
      (heapGet t.heap (t.leaves.getD i 0)).value = v →
      (∀ j, j < i → (heapGet t.heap (t.leaves.getD j 0)).value ≠ v) →
      generateProof t v = generateProofByIndex t (Int.ofNat i)) := by
  constructor
  · cases hf : findLeafIdx t.heap v t.leaves 0 with
    | none =>
      have hall := (findLeafIdx_eq_none_iff t.heap v t.leaves 0).mp hf
      simp only [generateProof, hf]
      exact iff_of_true trivial hall
    | some k =>
      simp only [generateProof, hf]
      constructor
      · intro hcontra
        exfalso
        unfold generateProofByIndex at hcontra
        split at hcontra
        · simp_all
        · dsimp only at hcontra
          split at hcontra <;> simp_all
      · intro hall
        exfalso
        rw [← findLeafIdx_eq_none_iff t.heap v t.leaves 0] at hall
        rw [hall] at hf
        cases hf
  · intro i hi hval hmin
    have hfirst := findLeafIdx_first t.heap v t.leaves 0 i hi hval hmin
    simp only [generateProof, hfirst, Nat.zero_add]

/-- A two-leaf tree over a toy injective digest, for witnesses. -/
def tinyTree : Tree :=
  match newTree [[5], [7]] (fun b => 9 :: b) with
  | .ok t => t
  | .error _ => default

/-- Witness for C8: on a concrete two-leaf tree, the missing value fails
with ErrNoVal and the value stored at leaf 1 delegates to index 1. -/
theorem generateProof_first_match_witness :
    (generateProof tinyTree [8] = .err .noVal ∧
      generateProof tinyTree [7] = generateProofByIndex tinyTree (Int.ofNat 1)) :=
  ⟨(generateProof_first_match tinyTree [8]).1.mpr (by decide),
   (generateProof_first_match tinyTree [7]).2 1 (by decide) (by decide)
     (fun j hj => by
       have hj0 : j = 0 := by omega
       subst hj0
       decide)⟩

/-- An empty tree for instantiating the nil-root behaviour. -/
def nilRootTree : Tree := { heap := [], root := none, leaves := [], hashFn := fun _ => [] }

/-- Claim C10: the Empty state (nil root) is reached by removing the only
leaf of a single-leaf tree; on it, VerifyProof dereferences the nil root
(a crash, `none`) for every proof and value instead of returning false or an
error, while under the precondition that the root is present the operation
always returns a result. -/
theorem verifyProof_nil_root (t : Tree) (p : Proof) (v : Bytes) :
    ((match removeLeaf (treeOf [[120]]) 0 with
      | .ok t' => t'.root
      | .err _ => some 0
      | .crash => some 0) = none)
  ∧ (t.root = none → (verifyProofS t p v).1 = none)
  ∧ (t.root ≠ none → ((verifyProofS t p v).1).isSome = true) := by
  refine ⟨by decide, fun hroot => ?_, fun hroot => ?_⟩
  · simp only [verifyProofS, hroot]
  · cases hr : t.root with
    | none => exact absurd hr hroot
    | some r =>
      simp only [verifyProofS, hr]
      split <;> rfl

/-- Witness for C10 at concrete inputs: a tree emptied by removal crashes
verification, a one-leaf tree verifies totally. -/
theorem verifyProof_nil_root_witness :
    (verifyProofS nilRootTree { hashes := [], index := 0 } []).1 = none
  ∧ ((verifyProofS (treeOf [[120]]) { hashes := [], index := 0 } [120]).1).isSome = true :=
  ⟨(verifyProof_nil_root nilRootTree { hashes := [], index := 0 } []).2.1 rfl,
   (verifyProof_nil_root (treeOf [[120]]) { hashes := [], index := 0 } [120]).2.2 (by decide)⟩

/-- Appending reads back the appended cell at any spelling of the length. -/
theorem heapGet_append_eq_of_len (h : Heap) (P : NodeData) (n : Nat) (hn : n = h.length) :
    heapGet (h ++ [P]) n = P := by
  subst hn
  exact heapGet_append_self h P

/-- The ASCII bytes of yolo, diftp, ngmi — the spec's concrete scenario. -/
def ydnValues : List Bytes := [[121, 111, 108, 111], [100, 105, 102, 116, 112], [110, 103, 109, 105]]

/-- The ASCII bytes of a, b, c. -/
def abcValues : List Bytes := [[97], [98], [99]]

/-- The ASCII bytes of a, b, c, d. -/
def abcdValues : List Bytes := [[97], [98], [99], [100]]

/-- Claim C3, counterexample: appending a fourth value with AddLeaf onto a
freshly built three-leaf tree yields a different root digest than an
independent build over the resulting four-value leaf sequence, refuting the
claimed equivalence for every tree and value. -/
theorem addLeaf_differs_from_rebuild :
    rootHash (addLeaf (treeOf abcValues) [100]) ≠ rootHash (treeOf abcdValues) := by
  decide

/-- Claim C3, amended: on a tree with a non-nil root, AddLeaf pairs the old
root with the new leaf, so the new root digest is the digest of the old root
digest followed by the digest of the value; on the concrete three-leaf tree
this differs from the digest a whole-tree rebuild produces. -/
theorem addLeaf_root_pairs_old_root :
    (∀ (t : Tree) (v : Bytes) (rid : Nat), t.root = some rid → rid < t.heap.length →
      rootHash (addLeaf t v) = t.hashFn ((heapGet t.heap rid).hash ++ t.hashFn v))
  ∧ rootHash (addLeaf (treeOf abcValues) [100]) ≠ rootHash (treeOf abcdValues) := by
  constructor
  · intro t v rid hroot hrid
    simp only [addLeaf, hroot, rootHash]
    rw [heapGet_append_eq_of_len]
    · simp only [hash_hmodify_parent]
      rw [heapGet_append_lt _ _ _ hrid, heapGet_append_self]
    · rw [length_hmodify, length_hmodify]
  · decide

/-- Witness for C3's amended statement: a concrete single-leaf tree. -/
theorem addLeaf_root_pairs_old_root_witness :
    rootHash (addLeaf (treeOf [[97]]) [98])
      = (treeOf [[97]]).hashFn ((heapGet (treeOf [[97]]).heap 0).hash ++ (treeOf [[97]]).hashFn [98]) :=
  addLeaf_root_pairs_old_root.1 (treeOf [[97]]) [98] 0 (by decide) (by decide)

/-- The spec's claimed root for the yolo/diftp/ngmi scenario (hex
a86aafc816451783ed59106e681f937c23f20f8175c795600063a887dab1aca2). -/
def specClaimedRoot : Bytes :=
  [0xa8, 0x6a, 0xaf, 0xc8, 0x16, 0x45, 0x17, 0x83, 0xed, 0x59, 0x10, 0x6e,
   0x68, 0x1f, 0x93, 0x7c, 0x23, 0xf2, 0x0f, 0x81, 0x75, 0xc7, 0x95, 0x60,
   0x00, 0x63, 0xa8, 0x87, 0xda, 0xb1, 0xac, 0xa2]

/-- The root the promotion-rule build actually produces for that scenario
(hex c015cc9ef945a1aa2e3936249b45eeeccb80a4ab1b87aebefcd0f9844d857b84), the
value asserted by the repository's own TestNewTree. -/
def promotionRoot : Bytes :=
  [0xc0, 0x15, 0xcc, 0x9e, 0xf9, 0x45, 0xa1, 0xaa, 0x2e, 0x39, 0x36, 0x24,
   0x9b, 0x45, 0xee, 0xec, 0xcb, 0x80, 0xa4, 0xab, 0x1b, 0x87, 0xae, 0xbe,
   0xfc, 0xd0, 0xf9, 0x84, 0x4d, 0x85, 0x7b, 0x84]

/-- Claim C5, counterexample: the promotion-rule build over yolo, diftp,
ngmi with SHA-256 does not produce the root the spec lists. -/
theorem ydn_root_not_spec_vector : rootHash (treeOf ydnValues) ≠ specClaimedRoot := by
  decide

/-- Claim C5, amended: that build produces root
c015cc9ef945a1aa2e3936249b45eeeccb80a4ab1b87aebefcd0f9844d857b84; the spec's
a86aafc8... vector belongs to an older variant that re-hashed the promoted
node into a single-child parent. -/
theorem ydn_root_is_promotion_root : rootHash (treeOf ydnValues) = promotionRoot := by
  decide

/-- Claim C1 (a code bug): for the freshly built yolo/diftp/ngmi tree, the
proof GenerateProofByIndex produces for the promoted leaf at index 2 is
rejected by VerifyProof against the leaf's own value: the generator emits no
entry for the promoted levels it skips, while the verifier halves the
running index once per entry, so index 2 is still even at the step where
the leaf is actually a right child. -/
theorem roundtrip_fails_for_promoted_leaf :
    (match generateProofByIndex (treeOf ydnValues) 2 with
     | .ok p => (verifyProofS (treeOf ydnValues) p [110, 103, 109, 105]).1
     | .err _ => none
     | .crash => none)
    = some (false, some Err.proofVerificationFailed) := by
  decide

/-- Claim C2 (a code bug): removing leaf 0 from the tree over a, b, c, d
leaves the detached parent with digest H(H(b)) instead of b's leaf digest
verbatim, and leaves the root — whose two children both survive — with
digest H(H(H(b))), the digest of its left child's new hash alone, instead of
combine(left, right): the else-if chain never hashes the right child when a
left child exists. -/
theorem removal_rehash_drops_right_child :
    ((match removeLeaf (treeOf abcdValues) 0 with
      | .ok t' =>
        some (rootHash t',
          match t'.root with
          | some r =>
            (match (heapGet t'.heap r).left with
             | some l => (heapGet t'.heap l).hash
             | none => [])
          | none => [])
      | .err _ => none
      | .crash => none)
      = some (sha256 (sha256 (sha256 [98])), sha256 (sha256 [98])))
  ∧ sha256 (sha256 [98]) ≠ sha256 [98]
  ∧ sha256 (sha256 (sha256 [98])) ≠ sha256 (sha256 [98] ++ sha256 (sha256 [99] ++ sha256 [100])) := by
  refine ⟨by decide, by decide, by decide⟩

/-- An in-range getD is a member. -/
theorem getD_mem_of_lt : ∀ (l : List Nat) (i : Nat), i < l.length → l.getD i 0 ∈ l
  | [], i, hi => absurd hi (by simp)
  | a :: l, 0, _ => List.mem_cons_self a l
  | a :: l, i + 1, hi =>
    List.mem_cons_of_mem a (getD_mem_of_lt l i (by simp only [List.length_cons] at hi; omega))

/-- In a duplicate-free level, adjacent pairing positions hold distinct nodes. -/
theorem getD_pair_ne_of_nodup (l : List Nat) (hnd : l.Nodup) (k : Nat)
    (hk : 2 * k + 1 < l.length) : l.getD (2 * k) 0 ≠ l.getD (2 * k + 1) 0 := by
  have h1 : 2 * k < l.length := by omega
  rw [List.getD_eq_getElem l 0 h1, List.getD_eq_getElem l 0 hk]
  intro heq
  have := (List.Nodup.getElem_inj_iff hnd).mp heq
  omega

/-- Claim C4: one level transition of buildTree (the body of its while
loop).  On a level whose node ids are valid, the next level has ceil(n/2)
nodes; no digest already on the heap is rewritten; the k-th new node is the
digest of the two distinct adjacent children at positions 2k and 2k+1 (so,
levels being duplicate-free, no node is ever combined with itself); and when
the level has odd cardinality the unpaired trailing node is promoted as the
very same node, its digest untouched — never hashed with itself nor
duplicated. -/
theorem buildStep_promotes_unpaired (H : Bytes → Bytes) :
    ∀ (h : Heap) (ns : List Nat), (∀ i ∈ ns, i < h.length) →
      (buildStep H h ns).2.length = (ns.length + 1) / 2
      ∧ (∀ i, i < h.length → (heapGet (buildStep H h ns).1 i).hash = (heapGet h i).hash)
      ∧ (∀ k, 2 * k + 1 < ns.length →
          (heapGet (buildStep H h ns).1 ((buildStep H h ns).2.getD k 0)).hash
            = H ((heapGet h (ns.getD (2 * k) 0)).hash ++ (heapGet h (ns.getD (2 * k + 1) 0)).hash))
      ∧ (∀ k, 2 * k + 1 = ns.length →
          (buildStep H h ns).2.getD k 0 = ns.getD (2 * k) 0
          ∧ (heapGet (buildStep H h ns).1 (ns.getD (2 * k) 0)).hash
              = (heapGet h (ns.getD (2 * k) 0)).hash)
      ∧ (ns.Nodup → ∀ k, 2 * k + 1 < ns.length → ns.getD (2 * k) 0 ≠ ns.getD (2 * k + 1) 0)
  | h, [], hv => by
    refine ⟨rfl, fun i _ => rfl, fun k hk => absurd hk (by simp), fun k hk => ?_,
      fun hnd k hk => absurd hk (by simp)⟩
    exfalso
    simp only [List.length_nil] at hk
    omega
  | h, [x], hv => by
    refine ⟨by simp [buildStep], fun i _ => rfl, fun k hk => ?_, fun k hk => ?_, fun hnd k hk => ?_⟩
    · exfalso
      simp only [List.length_singleton] at hk
      omega
    · simp only [List.length_singleton] at hk
      have hk0 : k = 0 := by omega
      subst hk0
      exact ⟨rfl, rfl⟩
    · exfalso
      simp only [List.length_singleton] at hk
      omega
  | h, x :: y :: rest, hv => by
    have hx : x < h.length := hv x (List.mem_cons_self x _)
    have hy : y < h.length := hv y (List.mem_cons_of_mem x (List.mem_cons_self y _))
    set h3 : Heap :=
      hmodify
        (hmodify
          (h ++ [{ left := some x, right := some y, parent := none,
                   hash := H ((heapGet h x).hash ++ (heapGet h y).hash), value := [] }])
          x (fun d => { d with parent := some h.length }))
        y (fun d => { d with parent := some h.length }) with hh3
    have key : buildStep H h (x :: y :: rest)
        = ((buildStep H h3 rest).1, h.length :: (buildStep H h3 rest).2) := by
      rw [hh3]
      rfl
    have hlen3 : h3.length = h.length + 1 := by
      rw [hh3, length_hmodify, length_hmodify, List.length_append, List.length_singleton]
    have hpres : ∀ j, j < h.length → (heapGet h3 j).hash = (heapGet h j).hash := by
      intro j hj
      rw [hh3, hash_hmodify_parent, hash_hmodify_parent, heapGet_append_lt _ _ _ hj]
    have hpid : (heapGet h3 h.length).hash = H ((heapGet h x).hash ++ (heapGet h y).hash) := by
      rw [hh3, hash_hmodify_parent, hash_hmodify_parent, heapGet_append_self]
    have hv3 : ∀ i ∈ rest, i < h3.length := by
      intro i hi
      have := hv i (List.mem_cons_of_mem x (List.mem_cons_of_mem y hi))
      omega
    have IH := buildStep_promotes_unpaired H h3 rest hv3
    refine ⟨?_, ?_, ?_, ?_, fun hnd k hk => getD_pair_ne_of_nodup _ hnd k hk⟩
    · rw [key]
      simp only [List.length_cons]
      rw [IH.1]
      omega
    · intro i hi
      rw [key]
      dsimp only
      rw [IH.2.1 i (by omega), hpres i hi]
    · intro k hk
      rw [key]
      dsimp only
      cases k with
      | zero =>
        simp only [Nat.mul_zero, Nat.zero_add, List.getD_cons_zero, List.getD_cons_succ]
        rw [IH.2.1 h.length (by omega), hpid]
      | succ k =>
        simp only [List.length_cons] at hk
        have hk2 : 2 * k + 1 < rest.length := by omega
        have e1 : 2 * (k + 1) = 2 * k + 1 + 1 := by ring
        rw [e1]
        simp only [List.getD_cons_succ]
        have hmem1 : rest.getD (2 * k) 0 ∈ rest := getD_mem_of_lt rest (2 * k) (by omega)
        have hmem2 : rest.getD (2 * k + 1) 0 ∈ rest := getD_mem_of_lt rest (2 * k + 1) (by omega)
        have hb1 : rest.getD (2 * k) 0 < h.length :=
          hv _ (List.mem_cons_of_mem x (List.mem_cons_of_mem y hmem1))
        have hb2 : rest.getD (2 * k + 1) 0 < h.length :=
          hv _ (List.mem_cons_of_mem x (List.mem_cons_of_mem y hmem2))
        rw [IH.2.2.1 k hk2, hpres _ hb1, hpres _ hb2]
    · intro k hk
      rw [key]
      dsimp only
      cases k with
      | zero =>
        exfalso
        simp only [List.length_cons] at hk
        omega
      | succ k =>
        simp only [List.length_cons] at hk
        have hk2 : 2 * k + 1 = rest.length := by omega
        have e1 : 2 * (k + 1) = 2 * k + 1 + 1 := by ring
        rw [e1]
        simp only [List.getD_cons_succ]
        obtain ⟨hid, hhash⟩ := IH.2.2.2.1 k hk2
        have hmem1 : rest.getD (2 * k) 0 ∈ rest := getD_mem_of_lt rest (2 * k) (by omega)
        have hb1 : rest.getD (2 * k) 0 < h.length :=
          hv _ (List.mem_cons_of_mem x (List.mem_cons_of_mem y hmem1))
        exact ⟨hid, by rw [hhash, hpres _ hb1]⟩


/-- Three detached nodes, a level of odd cardinality for the C4 witness. -/
def witnessHeap : Heap :=
  [{ left := none, right := none, parent := none, hash := [1], value := [1] },
   { left := none, right := none, parent := none, hash := [2], value := [2] },
   { left := none, right := none, parent := none, hash := [3], value := [3] }]

/-- A toy digest function for the C4 witness. -/
def witnessH : Bytes → Bytes := fun b => 9 :: b

/-- Witness for C4 on a concrete three-node level: the pair at positions 0
and 1 is combined, the trailing node 2 is promoted unchanged. -/
theorem buildStep_promotes_unpaired_witness :
    ((heapGet (buildStep witnessH witnessHeap [0, 1, 2]).1
        ((buildStep witnessH witnessHeap [0, 1, 2]).2.getD 0 0)).hash
      = witnessH ((heapGet witnessHeap 0).hash ++ (heapGet witnessHeap 1).hash))
  ∧ ((buildStep witnessH witnessHeap [0, 1, 2]).2.getD 1 0 = 2
      ∧ (heapGet (buildStep witnessH witnessHeap [0, 1, 2]).1 2).hash
          = (heapGet witnessHeap 2).hash) :=
  ⟨(buildStep_promotes_unpaired witnessH witnessHeap [0, 1, 2] (by decide)).2.2.1 0 (by decide),
   (buildStep_promotes_unpaired witnessH witnessHeap [0, 1, 2] (by decide)).2.2.2.1 1 (by decide)⟩

end MerkleSpec
